import Mathlib

/-!
# Verification of the `doom_text` maze generator and raycasting renderer

Shallow embedding of the core algorithms of `src/doom_text.c` (and, where
relevant, of its earlier hard-coded-map variant `src/app.c`):

* the randomized maze generator `generateNewMap` / `carveMaze`,
* the per-column ray-marching loop of `main`,
* the wall shade (color band) selection loop of `main`,
* the player state machine `handleUserInput`.

Modelling conventions:

* The map is a `List Char`, indexed by `col + width * row`, exactly as the C
  `char *map` array (`'#'` = wall, `' '` = open).
* C `int` coordinates and indices are modelled as `Int`.  The C cast
  `(int) f` of a `float` truncates toward zero; it is modelled by `truncQ`
  (on `ℚ`) and `truncR` (on `ℝ`).
* C `float` arithmetic is modelled exactly (over `ℚ`, or over `ℝ` where the
  source computes with `cos`/`sin` of the player heading) — except for
  claim C8, where the exactness of the accumulation is itself at issue:
  there the IEEE-754 binary32 rounding of `distanceToWall += 0.1f` is
  modelled bit-exactly by `fl32`.
* `rand()` is modelled as an oracle stream `rng : ℕ → ℕ`; the k-th call of
  `rand()` returns `rng k`.  The source uses `rand() % 4`.
* An out-of-bounds array read (undefined behaviour in C) is modelled by
  `lookupZ` returning the open character `' '`; an out-of-bounds array write
  (also UB) is modelled by `setZ` leaving the list unchanged.  Under the
  in-bounds invariants maintained by the generator these defaults are never
  exercised; theorems that exhibit undefined-behaviour accesses state the
  offending index explicitly instead of relying on the defaults.
-/

/-! ## Map array primitives -/

/-- Read `m[i]` for a C `int` index `i`.  Out-of-range reads (undefined
behaviour in C) return the open cell `' '`. -/
def lookupZ (m : List Char) (i : Int) : Char :=
  if 0 ≤ i then m.getD i.toNat ' ' else ' '

/-- Write `m[i] = c` for a C `int` index `i`.  Out-of-range writes (undefined
behaviour in C) leave the array unchanged. -/
def setZ (m : List Char) (i : Int) (c : Char) : List Char :=
  if 0 ≤ i then m.set i.toNat c else m

/-- Number of wall cells (`'#'`) of the map. -/
def wallCount : List Char → Nat
  | [] => 0
  | c :: t => (if c = '#' then 1 else 0) + wallCount t

theorem length_setZ (m : List Char) (i : Int) (c : Char) :
    (setZ m i c).length = m.length := by
  unfold setZ; split <;> simp

theorem lookupZ_setZ_ne (m : List Char) (i j : Int) (c : Char) (h : j ≠ i) :
    lookupZ (setZ m i c) j = lookupZ m j := by
  unfold lookupZ setZ
  split
  · split
    · rcases m.getElem?_set_ne (a := c) (i := i.toNat) (j := j.toNat)
        (fun hc => h (by omega)) with hc
      simp [List.getD, hc]
    · rfl
  · rfl

theorem lookupZ_setZ_eq (m : List Char) (i : Int) (c : Char)
    (h0 : 0 ≤ i) (h1 : i.toNat < m.length) :
    lookupZ (setZ m i c) i = c := by
  unfold lookupZ setZ
  rw [if_pos h0, if_pos h0]
  simp [List.getD, List.getElem?_set_self' , h1]

/-- A cell that reads as `'#'` is a genuine in-range wall cell. -/
theorem lookupZ_wall_bounds (m : List Char) (i : Int)
    (h : lookupZ m i = '#') : 0 ≤ i ∧ i.toNat < m.length := by
  unfold lookupZ at h
  split at h
  · refine ⟨by assumption, ?_⟩
    by_contra hlen
    rw [List.getD_eq_default _ _ (by omega)] at h
    exact absurd h (by decide)
  · exact absurd h (by decide)

/-! ## Maze generator (`generateNewMap`, `carveMaze` of `src/doom_text.c`) -/

/-- The direction vector of `carveMaze`'s `switch (dir)`:
`case 0: dx = 1; case 1: dy = 1; case 2: dx = -1; default: dy = -1`. -/
def dirDelta : Nat → Int × Int
  | 0 => (1, 0)
  | 1 => (0, 1)
  | 2 => (-1, 0)
  | _ => (0, -1)

/-- The local state of `carveMaze`'s `while (count < 4)` loop: the map, the
carving cursor `(x, y)`, the current direction `dir`, the failure counter
`count`, and the index `k` of the next `rand()` call. -/
structure CarveS where
  m : List Char
  x : Int
  y : Int
  dir : Nat
  count : Nat
  k : Nat
  deriving Repr

/-- One iteration of `carveMaze`'s loop body (doom_text.c lines 333-359):
compute the 1-step cell `(x1,y1)` and 2-step cell `(x2,y2)` in the current
direction; if `(x2,y2)` is strictly inside the border and both cells are
walls, open both, move the cursor to `(x2,y2)`, redraw the direction and
reset the counter; otherwise rotate the direction and count the failure. -/
def carveStep (rng : Nat → Nat) (w h : Int) (s : CarveS) : CarveS :=
  let dx := (dirDelta s.dir).1
  let dy := (dirDelta s.dir).2
  let x1 := s.x + dx
  let y1 := s.y + dy
  let x2 := x1 + dx
  let y2 := y1 + dy
  if 0 < x2 ∧ x2 < w ∧ 0 < y2 ∧ y2 < h ∧
      lookupZ s.m (x1 + w * y1) = '#' ∧ lookupZ s.m (x2 + w * y2) = '#' then
    { m := setZ (setZ s.m (x1 + w * y1) ' ') (x2 + w * y2) ' ',
      x := x2, y := y2, dir := rng s.k % 4, count := 0, k := s.k + 1 }
  else
    { s with dir := (s.dir + 1) % 4, count := s.count + 1 }

/-- `carveMaze`'s `while (count < 4)` loop, with explicit fuel.
`carveMaze` supplies fuel `2 * m.length + 8`, which is always sufficient
(theorem `carveLoop_reaches_exit`). -/
def carveLoop (rng : Nat → Nat) (w h : Int) : Nat → CarveS → CarveS
  | 0, s => s
  | fuel + 1, s =>
      if s.count < 4 then carveLoop rng w h fuel (carveStep rng w h s) else s

/-- `carveMaze(x, y, width, height)` (doom_text.c lines 325-360), acting on
map `m` with the next-`rand()`-index `k`; returns the carved map and the
updated `rand()` index. -/
def carveMaze (rng : Nat → Nat) (w h : Int) (m : List Char) (x y : Int)
    (k : Nat) : List Char × Nat :=
  let s := carveLoop rng w h (2 * m.length + 8)
    { m := m, x := x, y := y, dir := rng k % 4, count := 0, k := k + 1 }
  (s.m, s.k)

/-- The index sequence of a C loop `for (v = 1; v < n; v += 2)`. -/
def odds (n : Int) : List Int :=
  ((List.range n.toNat).filter (fun v => v % 2 = 1)).map Int.ofNat

/-- Index of the first manual seed-tunnel write `map[1 + width * 1]`. -/
def seedIdx1 (w : Int) : Int := 1 + w * 1

/-- Index of the second manual seed-tunnel write `map[1 + width * 2]`. -/
def seedIdx2 (w : Int) : Int := 1 + w * 2

/-- The carving scan of `generateNewMap`:
`for (y = 1; y < height; y += 2) for (x = 1; x < width; x += 2)
carveMaze(x, y, width, height);`, threading the map and the `rand()`
call index. -/
def carveScan (rng : Nat → Nat) (w h : Int) (start : List Char × Nat) :
    List Char × Nat :=
  (odds h).foldl
    (fun (acc : List Char × Nat) y =>
      (odds w).foldl
        (fun (acc2 : List Char × Nat) x => carveMaze rng w h acc2.1 x y acc2.2)
        acc)
    start

/-- `generateNewMap(width, height)` (doom_text.c lines 290-323): fill the map
with walls, manually open the two seed-tunnel cells, call `carveMaze` at
every odd coordinate pair, then puncture the entrance `map[1 + width * 0]`
and the exit `map[(width-2) + width*(height-1)]`.  The function performs no
validation of `width`/`height` whatsoever. -/
def generateNewMap (rng : Nat → Nat) (w h : Int) : List Char :=
  let m0 := List.replicate (w * h).toNat '#'
  let m1 := setZ (setZ m0 (seedIdx1 w) ' ') (seedIdx2 w) ' '
  let p := carveScan rng w h (m1, 0)
  let m3 := setZ p.1 (1 + w * 0) ' '
  setZ m3 ((w - 2) + w * (h - 1)) ' '

/-- After generating, doom_text.c places the player at `(1.5, 0.5)` —
just inside the entrance puncture at column 1, row 0. -/
def spawnX : ℚ := mkRat 3 2

/-- The player spawn row coordinate set by `generateNewMap`. -/
def spawnY : ℚ := mkRat 1 2

/-! ## Ray caster (per-column marching loop of `main`, doom_text.c 152-170)

The march direction `(unitX, unitY) = (cos rayAngle, sin rayAngle)` is passed
in as a pair of exact coordinates `(ux, uy)`; the marched distance and
positions are modelled exactly over `ℚ`. -/

/-- The C cast `(int) q` of a floating value: truncation toward zero
(`Int.tdiv` is C-style truncating division). -/
def truncQ (q : ℚ) : Int := q.num.tdiv q.den

/-- The map index `testY * mapWidth + testX` consulted by the marching loop
at travelled distance `d`, for a ray from `(px, py)` with direction
`(ux, uy)` on a map of width `w`:
`testX = (int)(playerX + unitX * d)`, `testY = (int)(playerY + unitY * d)`. -/
def testIdx (w : Int) (px py ux uy : ℚ) (d : ℚ) : Int :=
  truncQ (py + uy * d) * w + truncQ (px + ux * d)

/-- The marching loop of doom_text.c (lines 155-170):
`while (!hit && distanceToWall < MAX_DEPTH) { distanceToWall += 0.1f; ... }`
with `MAX_DEPTH = 25`.  In this variant the bounds check on
`(testX, testY)` is commented out, so the map is consulted at
`map[testY * mapWidth + testX]` unconditionally; the result records the
final distance together with the list of consulted indices (most recent
first).  The fuel `250 = MAX_DEPTH / 0.1` bounds the iteration count, which
the loop condition `distanceToWall < 25` enforces anyway. -/
def doomMarch (m : List Char) (w : Int) (px py ux uy : ℚ) :
    Nat → ℚ → List Int → ℚ × List Int
  | 0, d, acc => (d, acc)
  | fuel + 1, d, acc =>
      if d < 25 then
        let d' := d + mkRat 1 10
        let i := testIdx w px py ux uy d'
        if lookupZ m i = '#' then (d', i :: acc)
        else doomMarch m w px py ux uy fuel d' (i :: acc)
      else (d, acc)

/-- One column's ray cast: run the marching loop from distance 0. -/
def doomRayCast (m : List Char) (w : Int) (px py ux uy : ℚ) : ℚ × List Int :=
  doomMarch m w px py ux uy 250 0 []

/-! ## Wall shader (shade-selection loop of `main`, doom_text.c 177-184)

```
short pair = BLACK_ON_BLACK;
for (int i = WALL_SHADE_START + SHADES - 1; i >= WALL_SHADE_START; i--) {
  if (distanceToWall < ((float)MAX_DEPTH / (i - WALL_SHADE_START))) {
    pair = i;
    break;
  }
}
```
with `WALL_SHADE_START = 10`, `SHADES = 20`, `MAX_DEPTH = 25`.  Writing
`j = i - WALL_SHADE_START`, the loop scans `j = 19, 18, ..., 0` and selects
the first `j` with `distanceToWall < 25 / j`.  At `j = 0` the C expression
`25.0f / 0` is IEEE `+inf`, so the comparison holds for every finite
distance and the loop always selects a pair `≥ 10`; the `j = 0` case is
therefore modelled as unconditionally matching. -/

/-- The countdown of the shade-selection loop over `j = i - WALL_SHADE_START`. -/
def wallPairGo (d : ℚ) : Nat → Nat
  | 0 => 10
  | j + 1 => if d * (j + 1 : ℚ) < 25 then 10 + (j + 1) else wallPairGo d j

/-- The color pair selected for a hit at distance `d` (a value in `[10, 29]`,
`10` darkest, `29` brightest). -/
def wallPair (d : ℚ) : Nat := wallPairGo d 19

/-- The grey level `init_color` assigns to wall color pair `i`:
`((short)(800.0f / SHADES)) * (i - WALL_SHADE_START) = 40 * (i - 10)`
(doom_text.c lines 91-95).  Larger is brighter. -/
def wallShade (pair : Nat) : Nat := 40 * (pair - 10)

/-! ## Player state machine (`handleUserInput`, doom_text.c 243-287)

The globals `playerX, playerY, playerA, playerFOV` form the state.  Since the
source computes proposals with `cos`/`sin` of the heading, this component is
modelled over `ℝ`.  The `'q'` key returns from `handleUserInput` before the
collision check and changes no state, so it is omitted from `Cmd`;
`Cmd.keyOther` covers every other key (including "no key pending"), which
falls through the `switch` with `newX = playerX, newY = playerY`. -/

/-- The C cast `(int) r` of a floating value: truncation toward zero. -/
noncomputable def truncR (r : ℝ) : Int := if 0 ≤ r then ⌊r⌋ else ⌈r⌉

/-- Player state: the globals `playerX, playerY, playerA, playerFOV`. -/
structure PState where
  x : ℝ
  y : ℝ
  a : ℝ
  fov : ℝ

/-- The input commands processed by `handleUserInput` (other than `'q'`). -/
inductive Cmd where
  | keyW | keyA | keyS | keyD | keyLeft | keyRight | keyPlus | keyMinus
  | keyOther
  deriving DecidableEq

/-- The heading / field-of-view updates performed inside the `switch`:
`KEY_LEFT`/`KEY_RIGHT` add `∓ π/32` to `playerA`, `'+'`/`'-'` add `± π/32`
to `playerFOV`.  No clamping of any kind is performed. -/
noncomputable def turnFov (s : PState) : Cmd → PState
  | .keyLeft => { s with a := s.a - Real.pi / 32 }
  | .keyRight => { s with a := s.a + Real.pi / 32 }
  | .keyPlus => { s with fov := s.fov + Real.pi / 32 }
  | .keyMinus => { s with fov := s.fov - Real.pi / 32 }
  | _ => s

/-- The proposed position `(newX, newY)` computed inside the `switch`:
`'w'`/`'s'` move `± 0.5` along `(cos playerA, sin playerA)`, `'a'`/`'d'`
strafe `± 0.5` along `(sin playerA, -cos playerA)`; every other key leaves
the proposal at the current position. -/
noncomputable def propose (s : PState) : Cmd → ℝ × ℝ
  | .keyW => (s.x + 0.5 * Real.cos s.a, s.y + 0.5 * Real.sin s.a)
  | .keyA => (s.x + 0.5 * Real.sin s.a, s.y - 0.5 * Real.cos s.a)
  | .keyS => (s.x - 0.5 * Real.cos s.a, s.y - 0.5 * Real.sin s.a)
  | .keyD => (s.x - 0.5 * Real.sin s.a, s.y + 0.5 * Real.cos s.a)
  | _ => (s.x, s.y)

/-- The map index `(int) newY * mapWidth + (int) newX` consulted by the
collision check (doom_text.c line 281).  No bounds check precedes it. -/
noncomputable def collisionIndex (w : Int) (p : ℝ × ℝ) : Int :=
  truncR p.2 * w + truncR p.1

/-- `handleUserInput()` for one input command: apply the `switch`'s
heading/fov updates, compute the proposal, and accept it exactly when
`map[(int) newY * mapWidth + (int) newX] != '#'`. -/
noncomputable def handleUserInput (m : List Char) (w : Int) (c : Cmd)
    (s : PState) : PState :=
  let s1 := turnFov s c
  let p := propose s c
  if lookupZ m (collisionIndex w p) ≠ '#' then { s1 with x := p.1, y := p.2 }
  else s1

/-- The player state at the start of the game loop of doom_text.c:
`generateNewMap` has just set `(playerX, playerY) = (1.5, 0.5)`;
the globals initialize `playerA = π/2` and `playerFOV = π/4`. -/
noncomputable def initialPState : PState :=
  { x := 3 / 2, y := 1 / 2, a := Real.pi / 2, fov := Real.pi / 4 }

/-! ## Open-cell connectivity

The spec's perfect-maze property speaks about the graph whose vertices are
the open cells of the generated grid and whose edges join orthogonally
adjacent open cells; reachability is the reflexive-transitive closure of
that edge relation from the entrance cell (column 1, row 0). -/

/-- Cell `(c, r)` is a vertex of the open-cell graph: it lies inside the
`w × h` grid rectangle and its map entry is open. -/
def openCell (m : List Char) (w h c r : Int) : Prop :=
  0 ≤ c ∧ c < w ∧ 0 ≤ r ∧ r < h ∧ lookupZ m (c + w * r) = ' '

instance (m : List Char) (w h c r : Int) : Decidable (openCell m w h c r) := by
  unfold openCell; infer_instance

/-- Orthogonal adjacency of two grid cells. -/
def adjacentCell (p q : Int × Int) : Prop :=
  (p.1 = q.1 ∧ (q.2 = p.2 + 1 ∨ q.2 = p.2 - 1)) ∨
  (p.2 = q.2 ∧ (q.1 = p.1 + 1 ∨ q.1 = p.1 - 1))

instance (p q : Int × Int) : Decidable (adjacentCell p q) := by
  unfold adjacentCell; infer_instance

/-- One edge of the open-cell graph: both endpoints open and orthogonally
adjacent. -/
def openAdj (m : List Char) (w h : Int) (p q : Int × Int) : Prop :=
  openCell m w h p.1 p.2 ∧ openCell m w h q.1 q.2 ∧ adjacentCell p q

instance (m : List Char) (w h : Int) (p q : Int × Int) :
    Decidable (openAdj m w h p q) := by
  unfold openAdj; infer_instance

/-- Cell `p` is reachable from the entrance cell (column 1, row 0) inside the
open-cell graph of map `m`. -/
def reachableFromEntrance (m : List Char) (w h : Int) (p : Int × Int) : Prop :=
  Relation.ReflTransGen (openAdj m w h) (1, 0) p

/-- The four orthogonal neighbour candidates of a cell. -/
def nbrList (p : Int × Int) : List (Int × Int) :=
  [(p.1 + 1, p.2), (p.1 - 1, p.2), (p.1, p.2 + 1), (p.1, p.2 - 1)]

theorem adjacent_mem_nbrList (p q : Int × Int) (h : adjacentCell p q) :
    q ∈ nbrList p := by
  rcases p with ⟨a, b⟩; rcases q with ⟨c, d⟩
  simp only [adjacentCell] at h
  simp only [nbrList, List.mem_cons, List.mem_singleton, Prod.mk.injEq,
    List.not_mem_nil, or_false]
  omega

/-- Separator certificate: if a finite cell set `C` contains the entrance
and is closed under open-adjacency steps, no cell outside `C` is reachable
from the entrance. -/
theorem not_reachable_of_closed (m : List Char) (w h : Int)
    (C : List (Int × Int)) (hstart : ((1 : Int), (0 : Int)) ∈ C)
    (hclosed : ∀ p ∈ C, ∀ q ∈ nbrList p, openAdj m w h p q → q ∈ C)
    (t : Int × Int) (ht : t ∉ C) : ¬ reachableFromEntrance m w h t := by
  intro hreach
  have key : ∀ p, Relation.ReflTransGen (openAdj m w h) (1, 0) p → p ∈ C := by
    intro p hp
    induction hp with
    | refl => exact hstart
    | tail _ hadj ih =>
        exact hclosed _ ih _ (adjacent_mem_nbrList _ _ hadj.2.2) hadj
  exact ht (key t hreach)

/-! ## Concrete instances used by the counterexample and bug-exhibiting
theorems -/

/-- A concrete `rand() % 4` outcome stream (all values already reduced
mod 4); any such stream is realizable by a suitable `srand` seed state. -/
def exStream : List Nat :=
  [1, 1, 0, 1, 3, 3, 3, 2, 3, 3, 3, 3, 2, 1, 3, 0, 3, 3, 0, 3, 3, 3, 0, 0,
   2, 3, 3, 1, 3, 1]

/-- The RNG oracle realizing `exStream`. -/
def exRng : Nat → Nat := fun k => exStream.getD k 0

/-- The map `generateNewMap 9 9` produces under `exRng` (dots in the
source string denote open cells); the equality with the model is certified
where the literal is used. -/
def lit9 : List Char :=
  ("#.########...#...##.#.###.####...#.##.#.#.#.##.#.#...##.########.......########.#".toList.map
    (fun c => if c = '.' then ' ' else c))

/-- The open cells reachable from the entrance in `lit9` (the entrance
component, found by search and certified closed in the counterexample
proof). -/
def comp9 : List (Int × Int) :=
  [(1, 0), (1, 1), (2, 1), (3, 1), (5, 1), (6, 1), (7, 1), (1, 2), (3, 2),
   (7, 2), (3, 3), (4, 3), (5, 3), (7, 3), (3, 4), (5, 4), (7, 4), (3, 5),
   (5, 5), (6, 5), (7, 5)]

/-! ## Termination of `carveMaze` (claim C10)

Each iteration of the `while (count < 4)` loop either opens two wall cells
(strictly decreasing the finite wall count and resetting the failure
counter) or increments the failure counter; the measure
`2 * wallCount + (4 - count)` strictly decreases, so the fuel supplied by
`carveMaze` always suffices. -/

theorem wallCount_le_length (m : List Char) : wallCount m ≤ m.length := by
  induction m with
  | nil => simp [wallCount]
  | cons c t ih => unfold wallCount; split <;> simp <;> omega

theorem wallCount_set_open (m : List Char) (i : Nat) (hi : i < m.length)
    (hget : m.get ⟨i, hi⟩ = '#') :
    wallCount (m.set i ' ') + 1 = wallCount m := by
  induction m generalizing i with
  | nil => simp at hi
  | cons c t ih =>
      cases i with
      | zero =>
          simp only [List.get] at hget
          subst hget
          simp only [List.set, wallCount]
          rw [if_neg (show ¬(' ' = '#') by decide)]
          simp only [if_true]
          omega
      | succ j =>
          simp only [List.get] at hget
          have := ih j (by simpa using hi) hget
          simp only [List.set, wallCount]
          omega

theorem lookupZ_eq_get (m : List Char) (i : Int) (h0 : 0 ≤ i)
    (h1 : i.toNat < m.length) :
    lookupZ m i = m.get ⟨i.toNat, h1⟩ := by
  unfold lookupZ
  rw [if_pos h0, List.getD_eq_getElem _ _ h1]
  rfl

theorem wallCount_setZ_open (m : List Char) (i : Int)
    (hw : lookupZ m i = '#') :
    wallCount (setZ m i ' ') + 1 = wallCount m := by
  obtain ⟨h0, h1⟩ := lookupZ_wall_bounds m i hw
  rw [lookupZ_eq_get m i h0 h1] at hw
  unfold setZ
  rw [if_pos h0]
  exact wallCount_set_open m i.toNat h1 hw

theorem dirDelta_cases (d : Nat) :
    dirDelta d = (1, 0) ∨ dirDelta d = (0, 1) ∨
    dirDelta d = (-1, 0) ∨ dirDelta d = (0, -1) := by
  rcases d with _ | _ | _ | n <;> simp [dirDelta]

/-- Either an iteration of the carve loop succeeds — opening exactly two
wall cells and resetting the failure counter — or it leaves the map alone
and increments the failure counter. -/
theorem carveStep_cases (rng : Nat → Nat) (w h : Int) (s : CarveS) :
    (wallCount (carveStep rng w h s).m + 2 = wallCount s.m ∧
      (carveStep rng w h s).count = 0) ∨
    ((carveStep rng w h s).m = s.m ∧
      (carveStep rng w h s).count = s.count + 1) := by
  simp only [carveStep]
  split
  case isTrue hg =>
    dsimp only
    left
    obtain ⟨hx2a, hx2b, hy2a, hy2b, hw1, hw2⟩ := hg
    refine ⟨?_, rfl⟩
    have hne : (s.x + (dirDelta s.dir).1 + (dirDelta s.dir).1) +
        w * (s.y + (dirDelta s.dir).2 + (dirDelta s.dir).2) ≠
        (s.x + (dirDelta s.dir).1) + w * (s.y + (dirDelta s.dir).2) := by
      have hw0 : 0 < w := lt_trans hx2a hx2b
      rcases dirDelta_cases s.dir with hd | hd | hd | hd <;>
        rw [hd] <;> simp <;> nlinarith
    have e1 := wallCount_setZ_open s.m
      ((s.x + (dirDelta s.dir).1) + w * (s.y + (dirDelta s.dir).2)) hw1
    have hw2' : lookupZ
        (setZ s.m ((s.x + (dirDelta s.dir).1) + w * (s.y + (dirDelta s.dir).2)) ' ')
        ((s.x + (dirDelta s.dir).1 + (dirDelta s.dir).1) +
          w * (s.y + (dirDelta s.dir).2 + (dirDelta s.dir).2)) = '#' := by
      rw [lookupZ_setZ_ne _ _ _ _ hne]
      exact hw2
    have e2 := wallCount_setZ_open _ _ hw2'
    omega
  case isFalse => right; exact ⟨rfl, rfl⟩

/-- Fuel sufficiency for the carve loop: with fuel at least
`2 * wallCount + (4 - count)` the loop reaches its exit condition
`count ≥ 4`. -/
theorem carveLoop_reaches_exit (rng : Nat → Nat) (w h : Int) :
    ∀ (fuel : Nat) (s : CarveS),
      2 * wallCount s.m + (4 - s.count) ≤ fuel →
      4 ≤ (carveLoop rng w h fuel s).count := by
  intro fuel
  induction fuel with
  | zero => intro s hs; simp only [carveLoop]; omega
  | succ n ih =>
      intro s hs
      rw [carveLoop]
      split
      case isTrue hlt =>
        apply ih
        rcases carveStep_cases rng w h s with ⟨hwc, hc⟩ | ⟨hm, hc⟩
        · rw [hc]; omega
        · rw [hm, hc]; omega
      case isFalse hge => omega

/-- **C10.** `carveMaze` terminates for every starting cell, direction
sequence (RNG stream), and grid state: the fuel `2 * m.length + 8` it
supplies makes its `while (count < 4)` loop reach the genuine exit
condition `count ≥ 4` (it never stops by fuel exhaustion), because each
iteration either opens two wall cells — strictly decreasing the finite
wall count and resetting the failure counter — or increments the failure
counter, which exits the loop on reaching 4 (lemma `carveStep_cases`). -/
theorem carveMaze_terminates (rng : Nat → Nat) (w h : Int) (m : List Char)
    (x y : Int) (k : Nat) :
    4 ≤ (carveLoop rng w h (2 * m.length + 8)
      { m := m, x := x, y := y, dir := rng k % 4, count := 0, k := k + 1 }).count := by
  apply carveLoop_reaches_exit
  have := wallCount_le_length m
  simp only
  omega

/-! ## What a carve iteration can open (claim C1, amended part) -/

/-- The 1-step target index `x1 + width * y1` of a carve-loop iteration. -/
def carveIdx1 (w : Int) (s : CarveS) : Int :=
  (s.x + (dirDelta s.dir).1) + w * (s.y + (dirDelta s.dir).2)

/-- The 2-step target index `x2 + width * y2` of a carve-loop iteration. -/
def carveIdx2 (w : Int) (s : CarveS) : Int :=
  (s.x + (dirDelta s.dir).1 + (dirDelta s.dir).1) +
    w * (s.y + (dirDelta s.dir).2 + (dirDelta s.dir).2)

/-- **C1 (amended).** What the carving guard does guarantee: a carve-loop
iteration changes a map cell only when its guard held — the 1-step and the
2-step cells in the current direction were both still walls — and the only
cells it changes are those two, each turned from wall to open.  In
particular the carving procedure never opens a cell whose 2-step neighbour
in the carving direction is already open.  (This guard does not make the
maze perfect: a separate counterexample refutes connectivity.) -/
theorem carveStep_opens_only_guarded (rng : Nat → Nat) (w h : Int)
    (s : CarveS) (i : Int)
    (hchange : lookupZ (carveStep rng w h s).m i ≠ lookupZ s.m i) :
    (i = carveIdx1 w s ∨ i = carveIdx2 w s) ∧
    lookupZ s.m (carveIdx1 w s) = '#' ∧ lookupZ s.m (carveIdx2 w s) = '#' ∧
    lookupZ (carveStep rng w h s).m i = ' ' := by
  by_cases hg : 0 < s.x + (dirDelta s.dir).1 + (dirDelta s.dir).1 ∧
      s.x + (dirDelta s.dir).1 + (dirDelta s.dir).1 < w ∧
      0 < s.y + (dirDelta s.dir).2 + (dirDelta s.dir).2 ∧
      s.y + (dirDelta s.dir).2 + (dirDelta s.dir).2 < h ∧
      lookupZ s.m (carveIdx1 w s) = '#' ∧ lookupZ s.m (carveIdx2 w s) = '#'
  · obtain ⟨h1, h2, h3, h4, hw1, hw2⟩ := hg
    have hstep : (carveStep rng w h s).m =
        setZ (setZ s.m (carveIdx1 w s) ' ') (carveIdx2 w s) ' ' := by
      simp only [carveStep, carveIdx1, carveIdx2] at *
      rw [if_pos ⟨h1, h2, h3, h4, hw1, hw2⟩]
    rw [hstep] at hchange ⊢
    have hne : carveIdx2 w s ≠ carveIdx1 w s := by
      have hw0 : 0 < w := lt_trans h1 h2
      unfold carveIdx1 carveIdx2
      rcases dirDelta_cases s.dir with hd | hd | hd | hd <;>
        rw [hd] <;> simp <;> nlinarith
    obtain ⟨hb1a, hb1b⟩ := lookupZ_wall_bounds _ _ hw1
    obtain ⟨hb2a, hb2b⟩ := lookupZ_wall_bounds _ _ hw2
    by_cases hi2 : i = carveIdx2 w s
    · subst hi2
      refine ⟨Or.inr rfl, hw1, hw2, ?_⟩
      exact lookupZ_setZ_eq _ _ _ hb2a (by rw [length_setZ]; exact hb2b)
    · rw [lookupZ_setZ_ne _ _ _ _ hi2] at hchange ⊢
      by_cases hi1 : i = carveIdx1 w s
      · subst hi1
        exact ⟨Or.inl rfl, hw1, hw2, lookupZ_setZ_eq _ _ _ hb1a hb1b⟩
      · rw [lookupZ_setZ_ne _ _ _ _ hi1] at hchange
        exact absurd rfl hchange
  · exfalso
    apply hchange
    simp only [carveStep, carveIdx1, carveIdx2] at *
    rw [if_neg ?_]
    · intro hgg
      exact hg ⟨hgg.1, hgg.2.1, hgg.2.2.1, hgg.2.2.2.1, hgg.2.2.2.2.1,
        hgg.2.2.2.2.2⟩

/-- Closed witness for `carveStep_opens_only_guarded`: on an all-wall 5×5
map with the cursor at the seed cell (1,1) and direction 0 (east), the
iteration opens cells (2,1) and (3,1); instantiating the theorem at the
changed 1-step index 7 = 2 + 5·1 discharges its hypothesis. -/
theorem carveStep_opens_only_guarded_witness :
    lookupZ (carveStep (fun _ => 0) 5 5
      { m := List.replicate 25 '#', x := 1, y := 1, dir := 0, count := 0,
        k := 0 }).m 7 ≠
      lookupZ (List.replicate 25 '#') 7 ∧
    ((7 : Int) = carveIdx1 5
        { m := List.replicate 25 '#', x := 1, y := 1, dir := 0, count := 0,
          k := 0 } ∨
      (7 : Int) = carveIdx2 5
        { m := List.replicate 25 '#', x := 1, y := 1, dir := 0, count := 0,
          k := 0 }) ∧
    lookupZ (List.replicate 25 '#') (carveIdx1 5
      { m := List.replicate 25 '#', x := 1, y := 1, dir := 0, count := 0,
        k := 0 }) = '#' ∧
    lookupZ (List.replicate 25 '#') (carveIdx2 5
      { m := List.replicate 25 '#', x := 1, y := 1, dir := 0, count := 0,
        k := 0 }) = '#' ∧
    lookupZ (carveStep (fun _ => 0) 5 5
      { m := List.replicate 25 '#', x := 1, y := 1, dir := 0, count := 0,
        k := 0 }).m 7 = ' ' :=
  ⟨by decide, carveStep_opens_only_guarded (fun _ => 0) 5 5 _ 7 (by decide)⟩

/-! ## Border invariant of the generator (claim C9) -/

/-- All border cells of the `w × h` grid read as walls. -/
def BorderWalls (m : List Char) (w h : Int) : Prop :=
  ∀ c r : Int, 0 ≤ c → c < w → 0 ≤ r → r < h →
    (c = 0 ∨ c = w - 1 ∨ r = 0 ∨ r = h - 1) → lookupZ m (c + w * r) = '#'

theorem coordIdx_inj (w c r c' r' : Int) (hw : 0 < w) (hc : 0 ≤ c)
    (hcw : c < w) (hc' : 0 ≤ c') (hcw' : c' < w)
    (heq : c + w * r = c' + w * r') : c = c' ∧ r = r' := by
  have h1 : (c + w * r) % w = c := by
    rw [Int.add_mul_emod_self_left]
    exact Int.emod_eq_of_lt hc hcw
  have h2 : (c' + w * r') % w = c' := by
    rw [Int.add_mul_emod_self_left]
    exact Int.emod_eq_of_lt hc' hcw'
  have hcc : c = c' := by rw [← h1, ← h2, heq]
  refine ⟨hcc, ?_⟩
  subst hcc
  have : w * r = w * r' := by omega
  exact mul_left_cancel₀ (ne_of_gt hw) this

theorem coordIdx_range (w h c r : Int) (hw : 0 < w) (hc : 0 ≤ c)
    (hcw : c < w) (hr : 0 ≤ r) (hrh : r < h) :
    0 ≤ c + w * r ∧ c + w * r < w * h := by
  constructor
  · exact add_nonneg hc (mul_nonneg hw.le hr)
  · nlinarith [mul_le_mul_of_nonneg_left (by omega : r + 1 ≤ h) hw.le]

/-- Writing to a strictly-interior cell cannot disturb the border. -/
theorem borderWalls_setZ_inner (m : List Char) (w h c' r' : Int)
    (hb : BorderWalls m w h) (h1 : 0 < c') (h2 : c' < w - 1) (h3 : 0 < r')
    (h4 : r' < h - 1) (ch : Char) :
    BorderWalls (setZ m (c' + w * r') ch) w h := by
  intro c r hc hcw hr hrh hbrd
  rw [lookupZ_setZ_ne]
  · exact hb c r hc hcw hr hrh hbrd
  · intro heq
    obtain ⟨e1, e2⟩ := coordIdx_inj w c r c' r' (by omega) hc hcw (by omega)
      (by omega) heq
    omega

/-- One carve iteration keeps the cursor odd and strictly inside the grid,
keeps every border cell a wall, and preserves the map size (for odd grid
dimensions). -/
theorem carveStep_preserves_border (rng : Nat → Nat) (w h : Int)
    (hw2 : w % 2 = 1) (hh2 : h % 2 = 1) (s : CarveS)
    (hx2 : s.x % 2 = 1) (hx0 : 0 < s.x) (hxw : s.x < w)
    (hy2 : s.y % 2 = 1) (hy0 : 0 < s.y) (hyh : s.y < h)
    (hb : BorderWalls s.m w h) :
    (carveStep rng w h s).x % 2 = 1 ∧ 0 < (carveStep rng w h s).x ∧
    (carveStep rng w h s).x < w ∧
    (carveStep rng w h s).y % 2 = 1 ∧ 0 < (carveStep rng w h s).y ∧
    (carveStep rng w h s).y < h ∧
    BorderWalls (carveStep rng w h s).m w h ∧
    (carveStep rng w h s).m.length = s.m.length := by
  simp only [carveStep]
  split
  case isTrue hg =>
    dsimp only
    obtain ⟨hg1, hg2, hg3, hg4, hg5, hg6⟩ := hg
    rcases dirDelta_cases s.dir with hd | hd | hd | hd <;>
      rw [hd] at hg1 hg2 hg3 hg4 ⊢ <;>
      dsimp only at hg1 hg2 hg3 hg4 ⊢ <;>
      refine ⟨by omega, by omega, by omega, by omega, by omega, by omega,
        ?_, by rw [length_setZ, length_setZ]⟩ <;>
      · apply borderWalls_setZ_inner _ w h _ _
          (borderWalls_setZ_inner _ w h _ _ hb (by omega) (by omega)
            (by omega) (by omega) ' ')
          (by omega) (by omega) (by omega) (by omega)
  case isFalse =>
    exact ⟨hx2, hx0, hxw, hy2, hy0, hyh, hb, rfl⟩

theorem carveLoop_preserves_border (rng : Nat → Nat) (w h : Int)
    (hw2 : w % 2 = 1) (hh2 : h % 2 = 1) :
    ∀ (fuel : Nat) (s : CarveS),
      s.x % 2 = 1 → 0 < s.x → s.x < w →
      s.y % 2 = 1 → 0 < s.y → s.y < h →
      BorderWalls s.m w h →
      BorderWalls (carveLoop rng w h fuel s).m w h ∧
      (carveLoop rng w h fuel s).m.length = s.m.length := by
  intro fuel
  induction fuel with
  | zero => intro s _ _ _ _ _ _ hb; exact ⟨hb, rfl⟩
  | succ n ih =>
      intro s hx2 hx0 hxw hy2 hy0 hyh hb
      rw [carveLoop]
      split
      case isTrue hlt =>
        obtain ⟨px2, px0, pxw, py2, py0, pyh, pb, plen⟩ :=
          carveStep_preserves_border rng w h hw2 hh2 s hx2 hx0 hxw hy2 hy0
            hyh hb
        obtain ⟨qb, qlen⟩ := ih (carveStep rng w h s) px2 px0 pxw py2 py0
          pyh pb
        exact ⟨qb, qlen.trans plen⟩
      case isFalse => exact ⟨hb, rfl⟩

theorem carveMaze_preserves_border (rng : Nat → Nat) (w h : Int)
    (hw2 : w % 2 = 1) (hh2 : h % 2 = 1) (m : List Char) (x y : Int) (k : Nat)
    (hx2 : x % 2 = 1) (hx0 : 0 < x) (hxw : x < w)
    (hy2 : y % 2 = 1) (hy0 : 0 < y) (hyh : y < h)
    (hb : BorderWalls m w h) :
    BorderWalls (carveMaze rng w h m x y k).1 w h ∧
    (carveMaze rng w h m x y k).1.length = m.length := by
  unfold carveMaze
  exact carveLoop_preserves_border rng w h hw2 hh2 (2 * m.length + 8)
    { m := m, x := x, y := y, dir := rng k % 4, count := 0, k := k + 1 }
    hx2 hx0 hxw hy2 hy0 hyh hb

theorem mem_odds (n x : Int) (hx : x ∈ odds n) :
    0 < x ∧ x < n ∧ x % 2 = 1 := by
  simp only [odds, List.mem_map, List.mem_filter, List.mem_range,
    decide_eq_true_eq] at hx
  obtain ⟨v, ⟨hvr, hvo⟩, rfl⟩ := hx
  rw [show Int.ofNat v = (v : Int) from rfl]
  refine ⟨by omega, by omega, by omega⟩

theorem foldl_preserve {α β : Type} (P : β → Prop) (f : β → α → β)
    (l : List α) (b : β) (hb : P b)
    (hstep : ∀ acc, P acc → ∀ a, a ∈ l → P (f acc a)) : P (l.foldl f b) := by
  induction l generalizing b with
  | nil => exact hb
  | cons a t ih =>
      exact ih (f b a) (hstep b hb a (by simp))
        (fun acc hacc a' ha' => hstep acc hacc a' (by simp [ha']))

theorem carveScan_preserves_border (rng : Nat → Nat) (w h : Int)
    (hw2 : w % 2 = 1) (hh2 : h % 2 = 1) (start : List Char × Nat)
    (hb : BorderWalls start.1 w h) (L : Nat) (hlen : start.1.length = L) :
    BorderWalls (carveScan rng w h start).1 w h ∧
    (carveScan rng w h start).1.length = L := by
  unfold carveScan
  refine foldl_preserve
    (fun acc => BorderWalls acc.1 w h ∧ acc.1.length = L) _ (odds h) start
    ⟨hb, hlen⟩ ?_
  intro acc hacc y hy
  obtain ⟨hy0, hyh, hy2⟩ := mem_odds h y hy
  refine foldl_preserve
    (fun acc2 => BorderWalls acc2.1 w h ∧ acc2.1.length = L) _ (odds w) acc
    hacc ?_
  intro acc2 hacc2 x hx
  obtain ⟨hx0, hxw, hx2⟩ := mem_odds w x hx
  obtain ⟨rb, rlen⟩ := carveMaze_preserves_border rng w h hw2 hh2 acc2.1 x y
    acc2.2 hx2 hx0 hxw hy2 hy0 hyh hacc2.1
  exact ⟨rb, rlen.trans hacc2.2⟩

theorem lookupZ_replicate (n : Nat) (i : Int) (h0 : 0 ≤ i)
    (h1 : i.toNat < n) : lookupZ (List.replicate n '#') i = '#' := by
  unfold lookupZ
  rw [if_pos h0, List.getD_eq_getElem _ _ (by simpa using h1)]
  simp

/-- **C9.** For every RNG stream and odd `width, height ≥ 5`, every border
cell of the grid returned by `generateNewMap` is a wall except exactly the
entrance puncture at (column 1, row 0) and the exit puncture at
(column `width-2`, row `height-1`); in particular `carveMaze` never opens a
border cell. -/
theorem generateNewMap_border (rng : Nat → Nat) (w h : Int)
    (hw2 : w % 2 = 1) (hh2 : h % 2 = 1) (hw5 : 5 ≤ w) (hh5 : 5 ≤ h) :
    (∀ c r : Int, 0 ≤ c → c < w → 0 ≤ r → r < h →
      (c = 0 ∨ c = w - 1 ∨ r = 0 ∨ r = h - 1) →
      ¬(c = 1 ∧ r = 0) → ¬(c = w - 2 ∧ r = h - 1) →
      lookupZ (generateNewMap rng w h) (c + w * r) = '#') ∧
    lookupZ (generateNewMap rng w h) (1 + w * 0) = ' ' ∧
    lookupZ (generateNewMap rng w h) ((w - 2) + w * (h - 1)) = ' ' := by
  have hw0 : 0 < w := by omega
  have hh0 : 0 < h := by omega
  have hwh : 25 ≤ w * h := by nlinarith
  have hb0 : BorderWalls (List.replicate (w * h).toNat '#') w h := by
    intro c r hc hcw hr hrh _
    obtain ⟨ha, hbnd⟩ := coordIdx_range w h c r hw0 hc hcw hr hrh
    exact lookupZ_replicate _ _ ha (by omega)
  have hbseed1 : BorderWalls
      (setZ (List.replicate (w * h).toNat '#') (seedIdx1 w) ' ') w h := by
    have := borderWalls_setZ_inner (List.replicate (w * h).toNat '#') w h 1 1
      hb0 (by omega) (by omega) (by omega) (by omega) ' '
    simpa [seedIdx1] using this
  have hbseed : BorderWalls
      (setZ (setZ (List.replicate (w * h).toNat '#') (seedIdx1 w) ' ')
        (seedIdx2 w) ' ') w h := by
    have := borderWalls_setZ_inner _ w h 1 2 hbseed1 (by omega) (by omega)
      (by omega) (by omega) ' '
    simpa [seedIdx2] using this
  have hlen1 : (setZ (setZ (List.replicate (w * h).toNat '#') (seedIdx1 w) ' ')
      (seedIdx2 w) ' ').length = (w * h).toNat := by
    rw [length_setZ, length_setZ, List.length_replicate]
  obtain ⟨hbs, hlens⟩ := carveScan_preserves_border rng w h hw2 hh2
    (setZ (setZ (List.replicate (w * h).toNat '#') (seedIdx1 w) ' ')
      (seedIdx2 w) ' ', 0) hbseed (w * h).toNat hlen1
  have hgen : generateNewMap rng w h =
      setZ (setZ (carveScan rng w h
        (setZ (setZ (List.replicate (w * h).toNat '#') (seedIdx1 w) ' ')
          (seedIdx2 w) ' ', 0)).1 (1 + w * 0) ' ')
        ((w - 2) + w * (h - 1)) ' ' := rfl
  have hne_exit_ent : (1 : Int) + w * 0 ≠ (w - 2) + w * (h - 1) := by
    intro heq
    obtain ⟨e1, e2⟩ := coordIdx_inj w 1 0 (w - 2) (h - 1) hw0 (by omega)
      (by omega) (by omega) (by omega) heq
    omega
  have hexit_range := coordIdx_range w h (w - 2) (h - 1) hw0 (by omega)
    (by omega) (by omega) (by omega)
  have hent_range := coordIdx_range w h 1 0 hw0 (by omega) (by omega)
    (by omega) (by omega)
  refine ⟨?_, ?_, ?_⟩
  · intro c r hc hcw hr hrh hbrd hne1 hne2
    rw [hgen]
    have hne_exit : c + w * r ≠ (w - 2) + w * (h - 1) := by
      intro heq
      obtain ⟨e1, e2⟩ := coordIdx_inj w c r (w - 2) (h - 1) hw0 hc hcw
        (by omega) (by omega) heq
      exact hne2 ⟨e1, e2⟩
    have hne_ent : c + w * r ≠ 1 + w * 0 := by
      intro heq
      obtain ⟨e1, e2⟩ := coordIdx_inj w c r 1 0 hw0 hc hcw (by omega)
        (by omega) heq
      exact hne1 ⟨e1, e2⟩
    rw [lookupZ_setZ_ne _ _ _ _ hne_exit, lookupZ_setZ_ne _ _ _ _ hne_ent]
    exact hbs c r hc hcw hr hrh hbrd
  · rw [hgen, lookupZ_setZ_ne _ _ _ _ hne_exit_ent]
    apply lookupZ_setZ_eq
    · omega
    · rw [hlens]; omega
  · rw [hgen]
    apply lookupZ_setZ_eq
    · omega
    · rw [length_setZ, hlens]; omega

/-- Closed witness for `generateNewMap_border` at `rng ≡ 0`, `w = h = 5`:
the corner border cell (0,0) is a wall while the two punctures are open. -/
theorem generateNewMap_border_witness :
    lookupZ (generateNewMap (fun _ => 0) 5 5) (0 + 5 * 0) = '#' ∧
    lookupZ (generateNewMap (fun _ => 0) 5 5) (1 + 5 * 0) = ' ' ∧
    lookupZ (generateNewMap (fun _ => 0) 5 5) ((5 - 2) + 5 * (5 - 1)) = ' ' :=
  ⟨(generateNewMap_border (fun _ => 0) 5 5 (by decide) (by decide)
      (by decide) (by decide)).1 0 0 (by decide) (by decide) (by decide)
      (by decide) (Or.inl rfl) (by decide) (by decide),
   (generateNewMap_border (fun _ => 0) 5 5 (by decide) (by decide)
      (by decide) (by decide)).2.1,
   (generateNewMap_border (fun _ => 0) 5 5 (by decide) (by decide)
      (by decide) (by decide)).2.2⟩

/-! ## Shader monotonicity (claim C5) -/

theorem wallPairGo_le (d : ℚ) : ∀ j : Nat, wallPairGo d j ≤ 10 + j := by
  intro j
  induction j with
  | zero => simp [wallPairGo]
  | succ n ih =>
      rw [wallPairGo]
      split
      · omega
      · omega

theorem wallPairGo_antitone (d1 d2 : ℚ) (h12 : d1 ≤ d2) :
    ∀ j : Nat, wallPairGo d2 j ≤ wallPairGo d1 j := by
  intro j
  induction j with
  | zero => simp [wallPairGo]
  | succ n ih =>
      rw [wallPairGo, wallPairGo]
      by_cases h2 : d2 * (n + 1 : ℚ) < 25
      · have h1 : d1 * (n + 1 : ℚ) < 25 :=
          lt_of_le_of_lt (mul_le_mul_of_nonneg_right h12 (by positivity)) h2
        rw [if_pos h1, if_pos h2]
      · rw [if_neg h2]
        split
        · have := wallPairGo_le d2 n; omega
        · exact ih

/-- **C5.** The wall shade selection is monotone: for hit distances
`d1 ≤ d2` (both in `[0, MAX_DEPTH]`), the grey level of the color band
selected for `d1` is at least the grey level selected for `d2`; and a hit
whose distance saturated to `MAX_DEPTH = 25` selects the darkest band
(pair 10, grey level 0). -/
theorem wallShade_monotone (d1 d2 : ℚ) (h0 : 0 ≤ d1) (h12 : d1 ≤ d2)
    (h25 : d2 ≤ 25) :
    wallShade (wallPair d2) ≤ wallShade (wallPair d1) ∧
    wallPair 25 = 10 ∧ wallShade 10 = 0 := by
  refine ⟨?_, ?_, rfl⟩
  · have hmono := wallPairGo_antitone d1 d2 h12 19
    unfold wallPair wallShade
    omega
  · unfold wallPair
    have hstop : ∀ j : Nat, 1 ≤ j → ¬((25 : ℚ) * (j : ℚ) < 25) := by
      intro j hj
      rw [not_lt]
      have hj' : (1 : ℚ) ≤ (j : ℚ) := by exact_mod_cast hj
      nlinarith
    have : ∀ j : Nat, wallPairGo 25 j = 10 := by
      intro j
      induction j with
      | zero => rfl
      | succ n ih =>
          rw [wallPairGo, if_neg (by exact_mod_cast hstop (n + 1) (by omega))]
          exact ih
    exact this 19

/-- Closed witness for `wallShade_monotone` at `d1 = 1, d2 = 2`. -/
theorem wallShade_monotone_witness :
    wallShade (wallPair 2) ≤ wallShade (wallPair 1) ∧
    wallPair 25 = 10 ∧ wallShade 10 = 0 :=
  wallShade_monotone 1 2 (by norm_num) (by norm_num) (by norm_num)

/-! ## Saturation of the marching loop (claim C8)

Two models of the no-hit march are treated here.  First, the idealized
exact-arithmetic model (`doomMarch` over `ℚ`), in which the accumulated
distance reaches exactly `MAX_DEPTH`; then a bit-exact binary32 model of
the same `distanceToWall += 0.1f` accumulation, which shows the real
program overshoots the cap by `31/2^19`, refuting the claim's exactness. -/

theorem lookupZ_nil (i : Int) : lookupZ [] i = ' ' := by
  unfold lookupZ
  split <;> rfl

theorem mkRat_step (j : Nat) :
    mkRat j 10 + mkRat 1 10 = mkRat (j + 1 : Nat) 10 := by
  rw [Rat.mkRat_eq_div, Rat.mkRat_eq_div, Rat.mkRat_eq_div]
  push_cast
  ring

theorem mkRat_lt_25 (j : Nat) (hj : j < 250) : mkRat j 10 < 25 := by
  rw [Rat.mkRat_eq_div]
  rw [div_lt_iff (by norm_num)]
  exact_mod_cast (by exact_mod_cast hj : (j : ℚ) < 250)

theorem doomMarch_no_hit (m : List Char) (w : Int) (px py ux uy : ℚ) :
    ∀ (fuel j : Nat) (acc : List Int), j + fuel = 250 →
      (∀ k : Nat, j < k → k ≤ 250 →
        lookupZ m (testIdx w px py ux uy (mkRat k 10)) ≠ '#') →
      (doomMarch m w px py ux uy fuel (mkRat j 10) acc).1 = 25 := by
  intro fuel
  induction fuel with
  | zero =>
      intro j acc hj _
      have hj250 : j = 250 := by omega
      subst hj250
      show (mkRat 250 10 : ℚ) = 25
      rw [Rat.mkRat_eq_div]
      norm_num
  | succ n ih =>
      intro j acc hj hnohit
      rw [doomMarch]
      rw [if_pos (mkRat_lt_25 j (by omega))]
      simp only [mkRat_step j]
      rw [if_neg (hnohit (j + 1) (by omega) (by omega))]
      exact ih (j + 1) _ (by omega)
        (fun k hk1 hk2 => hnohit k (by omega) hk2)

/-- Exact-arithmetic contrast for claim C8: in the idealized model where
the float accumulation is exact rational arithmetic, a march that
encounters no wall cell reports exactly `MAX_DEPTH = 25` — 250 increments
of `1/10` land on the cap with no rounding.  The real program computes in
binary32, where this exactness fails (see the binary32 model below), so
this lemma describes the idealized model only, not the C program. -/
theorem doomRayCast_no_hit_exact (m : List Char) (w : Int) (px py ux uy : ℚ)
    (hnohit : ∀ k : Nat, 1 ≤ k → k ≤ 250 →
      lookupZ m (testIdx w px py ux uy (mkRat k 10)) ≠ '#') :
    (doomRayCast m w px py ux uy).1 = 25 := by
  unfold doomRayCast
  have h0 : (0 : ℚ) = mkRat 0 10 := by
    rw [Rat.mkRat_eq_div]; norm_num
  rw [h0]
  exact doomMarch_no_hit m w px py ux uy 250 0 [] (by omega)
    (fun k hk1 hk2 => hnohit k (by omega) hk2)

/-- Closed witness for `doomRayCast_no_hit_exact`: marching through an
empty map hits nothing, and the reported distance is exactly 25. -/
theorem doomRayCast_no_hit_exact_witness :
    (doomRayCast [] 23 0 0 1 0).1 = 25 :=
  doomRayCast_no_hit_exact [] 23 0 0 1 0
    (fun k _ _ => by rw [lookupZ_nil]; decide)

/-! ### Bit-exact binary32 model of the distance accumulation

`distanceToWall` is a C `float` (IEEE-754 binary32) and each iteration
executes `distanceToWall += 0.1f` — a binary32 addition rounded to nearest,
ties to even.  `fl32` below implements that rounding on exact rationals,
valid on the positive normal range (which covers every value of the loop,
`[0.1, 26]`; subnormal and overflow handling are never reached and are
omitted).  Under the claim's premise — no wall cell encountered during the
entire march — the loop's distance evolution does not depend on the map or
ray at all, so the single accumulation below is the distance computation of
every such ray. -/

/-- `⌊log2 n⌋` for `n ≥ 1` (0 at 0), by structural recursion on a fuel
argument so that it evaluates inside the kernel. -/
def natLog2Aux : Nat → Nat → Nat
  | 0, _ => 0
  | fuel + 1, n => if n < 2 then 0 else natLog2Aux fuel (n / 2) + 1

/-- `⌊log2 n⌋` for `n ≥ 1`. -/
def natLog2 (n : Nat) : Nat := natLog2Aux n n

/-- Does the positive rational `a / b` satisfy `2 ^ k ≤ a / b`? -/
def qGePow2 (a b : Nat) (k : Int) : Bool :=
  if 0 ≤ k then b * 2 ^ k.toNat ≤ a else b ≤ a * 2 ^ (-k).toNat

/-- IEEE-754 binary32 rounding (round to nearest, ties to even) of a
positive rational in the normal range: find the exponent `e` with
`2 ^ e ≤ q < 2 ^ (e + 1)`, scale `q` by the unit in the last place
`2 ^ (e - 23)` and round the resulting mantissa `q / 2 ^ (e - 23)
∈ [2^23, 2^24)` to an integer, halves to even. -/
def fl32 (q : ℚ) : ℚ :=
  if q ≤ 0 then 0 else
    let a := q.num.toNat
    let b := q.den
    let e0 : Int := (natLog2 a : Int) - (natLog2 b : Int) - 1
    let e : Int := if qGePow2 a b (e0 + 1) then e0 + 1 else e0
    let u : Int := e - 23
    let num := if 0 ≤ u then a else a * 2 ^ (-u).toNat
    let den := if 0 ≤ u then b * 2 ^ u.toNat else b
    let m := num / den
    let r := num % den
    let mr := if 2 * r < den then m
      else if den < 2 * r then m + 1
      else if m % 2 = 0 then m else m + 1
    if 0 ≤ u then mkRat (mr * 2 ^ u.toNat) 1 else mkRat mr (2 ^ (-u).toNat)

/-- The exact value of the binary32 literal `0.1f`:
`0x3DCCCCCD = 13421773 × 2⁻²⁷` (not `1/10`). -/
def floatStep : ℚ := mkRat 13421773 (2 ^ 27)

/-- The marching loop's distance accumulation under binary32 semantics when
no wall is ever hit: `while (distanceToWall < MAX_DEPTH) distanceToWall +=
0.1f;` with the addition rounded by `fl32`.  The fuel 300 is ample: the
loop exits after 250 iterations, and once `d ≥ 25` the remaining fuel
returns `d` unchanged, so a returned value `≥ 25` is the loop's genuine
exit value. -/
def floatMarchLoop : Nat → ℚ → ℚ
  | 0, d => d
  | fuel + 1, d =>
      if d < 25 then floatMarchLoop fuel (fl32 (d + floatStep)) else d

/-- The distance the C program reports for a ray that encounters no wall
during its entire march. -/
def floatNoHitDistance : ℚ := floatMarchLoop 300 0

set_option maxRecDepth 40000 in
unseal Rat.add Rat.mul Rat.sub Rat.inv in
/-- **C8 fails on the code (counterexample).**  Under binary32 arithmetic
the no-hit marching loop exits at `25 + 31/2^19 ≈ 25.0000591`, not at
exactly `MAX_DEPTH = 25`: the accumulated float sum of the `0.1f`
increments overshoots the cap, so the program does not report exactly
`max_depth`. -/
theorem floatMarch_overshoots_max_depth :
    floatNoHitDistance = 25 + mkRat 31 (2 ^ 19) ∧ floatNoHitDistance ≠ 25 := by
  exact ⟨by decide, by decide⟩

set_option maxRecDepth 40000 in
unseal Rat.add Rat.mul Rat.sub Rat.inv in
/-- **C8 (amended).**  For every ray whose entire march encounters no wall
cell, the binary32 marching loop reports a distance within one step of the
cap — `max_depth ≤ reported < max_depth + 0.1` — rather than exactly
`max_depth`; exactness holds only in idealized exact arithmetic. -/
theorem floatMarch_within_one_step :
    25 ≤ floatNoHitDistance ∧ floatNoHitDistance < 25 + mkRat 1 10 := by
  exact ⟨by decide, by decide⟩

/-! ## Player movement semantics (claim C4) -/

theorem truncR_of_nonneg (r : ℝ) (h : 0 ≤ r) : truncR r = ⌊r⌋ := by
  unfold truncR
  rw [if_pos h]

/-- **C4.** For every state and single command: a move/strafe proposal
(with an in-grid, hence non-negative, target) whose target cell
`(floor newY, floor newX)` is a wall leaves `(x, y)` unchanged; a proposal
whose target cell is open updates `(x, y)` to exactly the proposed value;
and a turn-left/turn-right/widen-fov/narrow-fov command never changes
`(x, y)`.  (On non-negative coordinates the C truncation `(int)` agrees
with `floor`, which is why the claim's `floor` phrasing applies.) -/
theorem handleUserInput_position (m : List Char) (w : Int) (s : PState)
    (c : Cmd) :
    ((c = Cmd.keyW ∨ c = Cmd.keyA ∨ c = Cmd.keyS ∨ c = Cmd.keyD) →
      0 ≤ (propose s c).1 → 0 ≤ (propose s c).2 →
      ((lookupZ m (⌊(propose s c).2⌋ * w + ⌊(propose s c).1⌋) = '#' →
        (handleUserInput m w c s).x = s.x ∧
        (handleUserInput m w c s).y = s.y) ∧
       (lookupZ m (⌊(propose s c).2⌋ * w + ⌊(propose s c).1⌋) ≠ '#' →
        (handleUserInput m w c s).x = (propose s c).1 ∧
        (handleUserInput m w c s).y = (propose s c).2))) ∧
    ((c = Cmd.keyLeft ∨ c = Cmd.keyRight ∨ c = Cmd.keyPlus ∨
        c = Cmd.keyMinus) →
      (handleUserInput m w c s).x = s.x ∧
      (handleUserInput m w c s).y = s.y) := by
  constructor
  · intro hmove hx hy
    have hci : collisionIndex w (propose s c) =
        ⌊(propose s c).2⌋ * w + ⌊(propose s c).1⌋ := by
      unfold collisionIndex
      rw [truncR_of_nonneg _ hy, truncR_of_nonneg _ hx]
    have hturn : turnFov s c = s := by
      rcases hmove with rfl | rfl | rfl | rfl <;> rfl
    constructor
    · intro hwall
      simp only [handleUserInput]
      rw [hci, if_neg (fun hcon => hcon hwall), hturn]
      exact ⟨rfl, rfl⟩
    · intro hopen
      simp only [handleUserInput]
      rw [hci, if_pos hopen]
      exact ⟨rfl, rfl⟩
  · intro hturncmd
    have hprop : propose s c = (s.x, s.y) := by
      rcases hturncmd with rfl | rfl | rfl | rfl <;> rfl
    have hxy : (turnFov s c).x = s.x ∧ (turnFov s c).y = s.y := by
      rcases hturncmd with rfl | rfl | rfl | rfl <;> exact ⟨rfl, rfl⟩
    simp only [handleUserInput]
    split
    · rw [hprop]
      exact ⟨rfl, rfl⟩
    · exact hxy

/-- The state used by the witness: the spec's end-to-end scenario — player
at `(1.5, 1.5)`, heading 0 (east), default field of view — in an all-open
5×5 grid. -/
noncomputable def demoState : PState :=
  { x := 3 / 2, y := 3 / 2, a := 0, fov := Real.pi / 4 }

/-- Closed witness for `handleUserInput_position`: move-forward from
`(1.5, 1.5)` heading 0 in an all-open 5×5 grid moves the player to exactly
`(1.5 + 0.5, 1.5) = (2, 1.5)`. -/
theorem handleUserInput_position_witness :
    (handleUserInput (List.replicate 25 ' ') 5 Cmd.keyW demoState).x = 2 ∧
    (handleUserInput (List.replicate 25 ' ') 5 Cmd.keyW demoState).y = 3 / 2 := by
  have hprop : propose demoState Cmd.keyW = (2, 3 / 2) := by
    unfold propose demoState
    rw [Real.cos_zero, Real.sin_zero]
    norm_num
  have H := ((handleUserInput_position (List.replicate 25 ' ') 5 demoState
      Cmd.keyW).1 (Or.inl rfl) (by rw [hprop]; norm_num)
      (by rw [hprop]; norm_num)).2
  rw [hprop] at H
  have hlook : lookupZ (List.replicate 25 ' ')
      (⌊((2 : ℝ), (3 / 2 : ℝ)).2⌋ * 5 + ⌊((2 : ℝ), (3 / 2 : ℝ)).1⌋) ≠ '#' := by
    have h2 : ⌊((2 : ℝ), (3 / 2 : ℝ)).1⌋ = 2 := by norm_num
    have h32 : ⌊((2 : ℝ), (3 / 2 : ℝ)).2⌋ = 1 := by norm_num [Int.floor_eq_iff]
    rw [h2, h32]
    decide
  obtain ⟨e1, e2⟩ := H hlook
  rw [e1, e2]
  exact ⟨rfl, rfl⟩

/-! ## Missing bounds check in the collision test (claim C3)

doom_text.c line 281 tests `map[(int) newY * mapWidth + (int) newX]` with
no bounds check whatsoever, so an out-of-bounds proposal is not rejected:
below, from the reachable state `(1.5, 0, -π/2)` (spawn, then 32 left
turns, then one forward step through the open entrance), a forward step is
*accepted* into `y = -0.5` outside the grid, and the following forward step
makes the collision test read `map[-22]`. -/

/-- A map whose entrance cell `map[1]` is open, as `generateNewMap`
guarantees for every generated map (its final writes include
`map[1 + width * 0] = ' '`). -/
def mEnt : List Char := (List.replicate 529 '#').set 1 ' '

/-- The reachable player state just above the entrance: position
`(1.5, 0)`, heading `-π/2` (facing up, out of the maze). -/
noncomputable def oobState : PState :=
  { x := 3 / 2, y := 0, a := -(Real.pi / 2), fov := Real.pi / 4 }

theorem truncR_three_halves : truncR (3 / 2 : ℝ) = 1 := by
  rw [truncR_of_nonneg _ (by norm_num)]
  norm_num [Int.floor_eq_iff]

theorem truncR_neg_half : truncR (-(1 / 2) : ℝ) = 0 := by
  unfold truncR
  rw [if_neg (by norm_num)]
  norm_num [Int.ceil_eq_iff]

theorem truncR_neg_one : truncR (-1 : ℝ) = -1 := by
  unfold truncR
  rw [if_neg (by norm_num)]
  rw [show (-1 : ℝ) = ((-1 : ℤ) : ℝ) by norm_num, Int.ceil_intCast]

theorem cos_neg_pi_div_two : Real.cos (-(Real.pi / 2)) = 0 := by
  rw [Real.cos_neg, Real.cos_pi_div_two]

theorem sin_neg_pi_div_two : Real.sin (-(Real.pi / 2)) = -1 := by
  rw [Real.sin_neg, Real.sin_pi_div_two]

/-- **C3 fails on the code.** A forward step from the reachable state
`oobState` proposes `(1.5, -0.5)`, which lies outside the grid; the
collision test accepts it (position becomes out of bounds instead of being
rejected), and the next forward step makes the collision test index the
map at `-22 < 0` — an out-of-bounds read. -/
theorem handleUserInput_accepts_oob :
    (handleUserInput mEnt 23 Cmd.keyW oobState).x = 3 / 2 ∧
    (handleUserInput mEnt 23 Cmd.keyW oobState).y = -(1 / 2) ∧
    collisionIndex 23
      (propose (handleUserInput mEnt 23 Cmd.keyW oobState) Cmd.keyW) = -22 ∧
    (-22 : Int) < 0 := by
  have hprop1 : propose oobState Cmd.keyW = (3 / 2, -(1 / 2)) := by
    unfold propose oobState
    rw [cos_neg_pi_div_two, sin_neg_pi_div_two]
    norm_num
  have hidx1 : collisionIndex 23 ((3 / 2 : ℝ), (-(1 / 2) : ℝ)) = 1 := by
    unfold collisionIndex
    rw [show ((3 / 2 : ℝ), (-(1 / 2) : ℝ)).2 = (-(1 / 2) : ℝ) from rfl,
      show ((3 / 2 : ℝ), (-(1 / 2) : ℝ)).1 = (3 / 2 : ℝ) from rfl,
      truncR_neg_half, truncR_three_halves]
    norm_num
  have hs1 : handleUserInput mEnt 23 Cmd.keyW oobState =
      { x := 3 / 2, y := -(1 / 2), a := -(Real.pi / 2),
        fov := Real.pi / 4 } := by
    simp only [handleUserInput]
    rw [hprop1, hidx1, if_pos (by decide : lookupZ mEnt 1 ≠ '#')]
    rfl
  refine ⟨by rw [hs1], by rw [hs1], ?_, by decide⟩
  rw [hs1]
  have hprop2 : propose
      { x := (3 / 2 : ℝ), y := -(1 / 2), a := -(Real.pi / 2),
        fov := Real.pi / 4 } Cmd.keyW = (3 / 2, -1) := by
    unfold propose
    rw [cos_neg_pi_div_two, sin_neg_pi_div_two]
    norm_num
  rw [hprop2]
  unfold collisionIndex
  rw [show ((3 / 2 : ℝ), (-1 : ℝ)).2 = (-1 : ℝ) from rfl,
    show ((3 / 2 : ℝ), (-1 : ℝ)).1 = (3 / 2 : ℝ) from rfl,
    truncR_neg_one, truncR_three_halves]
  norm_num

/-! ## Unclamped field of view (claim C6) -/

theorem fov_keyMinus (m : List Char) (w : Int) (st : PState) :
    (handleUserInput m w Cmd.keyMinus st).fov = st.fov - Real.pi / 32 := by
  simp only [handleUserInput]
  split <;> rfl

/-- **C6 fails on the code.** `'-'` subtracts `π/32` from `playerFOV` with
no clamping, so from the initial state (`playerFOV = π/4`) eight presses of
`'-'` drive the field of view to exactly 0 and a ninth makes it negative:
the reachable-state invariant `fov > 0` claimed by the spec does not hold. -/
theorem playerFOV_reaches_zero (m : List Char) (w : Int) :
    ((handleUserInput m w Cmd.keyMinus)^[8] initialPState).fov = 0 ∧
    ((handleUserInput m w Cmd.keyMinus)^[9] initialPState).fov < 0 := by
  have hiter : ∀ n : Nat,
      ((handleUserInput m w Cmd.keyMinus)^[n] initialPState).fov =
        Real.pi / 4 - n * (Real.pi / 32) := by
    intro n
    induction n with
    | zero => simp [initialPState]
    | succ k ih =>
        rw [Function.iterate_succ_apply', fov_keyMinus, ih]
        push_cast
        ring
  constructor
  · rw [hiter 8]
    push_cast
    ring
  · rw [hiter 9]
    have := Real.pi_pos
    push_cast
    nlinarith

/-! ## No validation of small map dimensions (claim C7) -/

/-- **C7 fails on the code.** `generateNewMap` performs no validation of
`width`/`height`: called with `width = 1, height = 3` it simply proceeds —
the model returns a 3-cell grid — even though its second seed-tunnel write
`map[1 + width * 2] = map[3]` lies outside the `width * height = 3`-cell
allocation (a heap overflow in the C program, dropped by the model's
`setZ`).  No configuration error exists anywhere in its control flow. -/
theorem generateNewMap_no_size_check :
    ¬ (seedIdx2 1 < 1 * 3) ∧
    (generateNewMap (fun _ => 0) 1 3).length = 3 := by
  exact ⟨by decide, by decide⟩

/-! ## The marching loop reads out of bounds (claim C2)

doom_text.c lines 160-165 keep the bounds check of the marching loop
commented out, so a ray that leaves the grid keeps consulting
`map[testY * mapWidth + testX]`.  From the spawn `(1.5, 0.5)` set by
`generateNewMap`, the ray with direction `(0, -1)` — the screen column whose
`rayAngle` is `-π/2`, reachable after 32 left-arrow turns — passes through
the open entrance cell `map[1]` (steps 1-14 all truncate to index 1) and at
step 15 consults `map[(int)(-1.0) * 23 + 1] = map[-22]`. -/

theorem doomMarch_acc_mono (m : List Char) (w : Int) (px py ux uy : ℚ)
    (i : Int) :
    ∀ (fuel : Nat) (d : ℚ) (acc : List Int), i ∈ acc →
      i ∈ (doomMarch m w px py ux uy fuel d acc).2 := by
  intro fuel
  induction fuel with
  | zero => intro d acc hacc; exact hacc
  | succ n ih =>
      intro d acc hacc
      simp only [doomMarch]
      split
      · split
        · exact List.mem_cons_of_mem _ hacc
        · exact ih _ _ (List.mem_cons_of_mem _ hacc)
      · exact hacc

theorem truncQ_eq_zero (q : ℚ) (h1 : -1 < q) (h2 : q < 1) : truncQ q = 0 := by
  unfold truncQ
  have hden : (0 : Int) < (q.den : Int) := by exact_mod_cast q.pos
  have hnum_lt : q.num < (q.den : Int) := Rat.lt_one_iff_num_lt_denom.mp h2
  have hnum_gt : -(q.den : Int) < q.num := by
    have hneg : -q < 1 := by linarith
    have h3 := Rat.lt_one_iff_num_lt_denom.mp hneg
    rw [Rat.neg_num, Rat.neg_den] at h3
    omega
  rcases le_or_lt 0 q.num with hn | hn
  · exact Int.tdiv_eq_zero_of_lt hn hnum_lt
  · have hz : (-q.num).tdiv q.den = 0 :=
      Int.tdiv_eq_zero_of_lt (by omega) (by omega)
    rw [Int.neg_tdiv] at hz
    omega

theorem truncQ_spawnX : truncQ spawnX = 1 := by decide

theorem spawnY_step (j : Nat) :
    spawnY + (-1) * mkRat (j + 1 : Nat) 10 = 1 / 2 - ((j : ℚ) + 1) / 10 := by
  unfold spawnY
  rw [Rat.mkRat_eq_div, Rat.mkRat_eq_div]
  push_cast
  ring

theorem doomMarch_entrance_oob (m : List Char) (hm : lookupZ m 1 = ' ') :
    ∀ (fuel j : Nat) (acc : List Int), j ≤ 14 → j + fuel = 250 →
      (-22 : Int) ∈
        (doomMarch m 23 spawnX spawnY 0 (-1) fuel (mkRat j 10) acc).2 := by
  intro fuel
  induction fuel with
  | zero => intro j acc hj hsum; omega
  | succ n ih =>
      intro j acc hj hsum
      rw [doomMarch]
      rw [if_pos (mkRat_lt_25 j (by omega))]
      simp only [mkRat_step j]
      have hx : spawnX + 0 * mkRat (j + 1 : Nat) 10 = spawnX := by ring
      rcases Nat.lt_or_ge j 14 with hj13 | hj14
      · have hy0 : truncQ (spawnY + (-1) * mkRat (j + 1 : Nat) 10) = 0 := by
          rw [spawnY_step j]
          have hjq : (j : ℚ) ≤ 13 := by exact_mod_cast Nat.lt_succ_iff.mp hj13
          have hjq0 : (0 : ℚ) ≤ (j : ℚ) := by positivity
          apply truncQ_eq_zero <;> linarith
        have hidx : testIdx 23 spawnX spawnY 0 (-1) (mkRat (j + 1 : Nat) 10)
            = 1 := by
          unfold testIdx
          rw [hx, hy0, truncQ_spawnX]
          ring
        rw [hidx, if_neg (by rw [hm]; decide)]
        exact ih (j + 1) _ (by omega) (by omega)
      · have hj14' : j = 14 := by omega
        subst hj14'
        have hy1 : truncQ (spawnY + (-1) * mkRat (14 + 1 : Nat) 10) = -1 := by
          have : spawnY + (-1) * mkRat (14 + 1 : Nat) 10 = -1 := by
            unfold spawnY
            rw [Rat.mkRat_eq_div, Rat.mkRat_eq_div]
            norm_num
          rw [this]
          decide
        have hidx : testIdx 23 spawnX spawnY 0 (-1) (mkRat (14 + 1 : Nat) 10)
            = -22 := by
          unfold testIdx
          rw [hx, hy1, truncQ_spawnX]
          ring
        rw [hidx]
        split
        · exact List.mem_cons_self _ _
        · exact doomMarch_acc_mono m 23 spawnX spawnY 0 (-1) (-22) n _ _
            (List.mem_cons_self _ _)

/-- **C2 fails on the code (doom_text.c).**  The bounds check of the
marching loop is commented out in doom_text.c (lines 160-165), so the ray
from the spawn `(1.5, 0.5)` with direction `(0, -1)` — reachable after 32
left turns — escapes through the open entrance cell `map[1]` (which every
generated map has) and at march step 15 consults map index
`(int)(-1.0) * 23 + 1 = -22 < 0`: an out-of-bounds read, instead of the
claimed capped `max_depth` hit. -/
theorem doomtext_ray_reads_oob (m : List Char) (hm : lookupZ m 1 = ' ') :
    (-22 : Int) ∈ (doomRayCast m 23 spawnX spawnY 0 (-1)).2 ∧
    ¬ (0 ≤ (-22 : Int)) := by
  refine ⟨?_, by decide⟩
  unfold doomRayCast
  have h0 : (0 : ℚ) = mkRat 0 10 := by
    rw [Rat.mkRat_eq_div]; norm_num
  rw [h0]
  exact doomMarch_entrance_oob m hm 250 0 [] (by omega) (by omega)

/-- Closed witness for `doomtext_ray_reads_oob` on a 23-wide map with the
entrance cell `map[1]` open, exactly as `generateNewMap` leaves it. -/
theorem doomtext_ray_reads_oob_witness :
    (-22 : Int) ∈ (doomRayCast mEnt 23 spawnX spawnY 0 (-1)).2 ∧
    ¬ (0 ≤ (-22 : Int)) :=
  doomtext_ray_reads_oob mEnt (by decide)

set_option maxRecDepth 10000 in
/-- **C1 fails on the code.**  The generated maze need not be perfect:
under the realizable RNG outcome stream `exStream`, `generateNewMap 9 9`
(odd dimensions ≥ 5) produces a grid in which the open cell at
(column 1, row 4) is not reachable from the entrance cell (column 1,
row 0): the entrance component `comp9` is closed under open-adjacency and
does not contain it. -/
theorem generateNewMap_not_connected :
    generateNewMap exRng 9 9 = lit9 ∧
    openCell lit9 9 9 1 4 ∧
    ¬ reachableFromEntrance lit9 9 9 (1, 4) := by
  refine ⟨by decide, by decide, ?_⟩
  exact not_reachable_of_closed lit9 9 9 comp9 (by decide) (by decide)
    (1, 4) (by decide)
